import Mathlib

/-
Verification development for the repodump tool (src/src/main.rs).

The embedding models strings as lists of characters.  Rust's
str::split family, the two compiled patterns used by the Link-header
parser, URL query-parameter merging, integer parsing for the menu, and
the pagination loop of GithubClient::fetch_repos are translated
function by function from the source.  External collaborators (the
HTTP transport, the serde JSON decoder, the rustyline editor and the
git child process) are modelled as function parameters, exactly at the
boundary where the source calls into the corresponding library.
-/

abbrev Str := List Char

/-- Rust str::split(c): splits on every occurrence of the separator,
keeping empty pieces, and yields at least one piece. -/
def splitOnChar (c : Char) : Str → List Str
  | [] => [[]]
  | x :: xs =>
    if x = c then [] :: splitOnChar c xs
    else
      match splitOnChar c xs with
      | [] => [[x]]
      | y :: ys => (x :: y) :: ys

/-- Joins pieces with a single separator character (inverse of splitOnChar). -/
def joinSep (c : Char) : List Str → Str
  | [] => []
  | [x] => x
  | x :: y :: ys => x ++ c :: joinSep c (y :: ys)

/-- Splits a string at the first occurrence of a character: returns the part
before it and, when the character occurs, the part after it. -/
def splitAtFirst (c : Char) : Str → Str × Option Str
  | [] => ([], none)
  | x :: xs =>
    if x = c then ([], some xs)
    else
      let r := splitAtFirst c xs
      (x :: r.1, r.2)

/- ----------------------------------------------------------------
   The two compiled patterns of LinkHeader (main.rs lines 87-90):
     LINK_RE = <(.+)>          applied through Regex::captures
     REL_RE  = rel="?([^"]+)"?
   Regex::captures uses leftmost-first search; a greedy .+ does not
   cross a newline; a greedy optional quote backtracks when the
   following one-or-more class cannot match.
   ---------------------------------------------------------------- -/

/-- Index of the last occurrence of a character in a list, if any. -/
def lastIdxOf (c : Char) : Str → Option Nat
  | [] => none
  | x :: xs =>
    match lastIdxOf c xs with
    | some j => some (j + 1)
    | none => if x = c then some 0 else none

/-- Tries to match the pattern <(.+)> at the head of the input:
an opening angle bracket, then a greedy non-empty run of non-newline
characters, then a closing angle bracket.  Returns the capture group. -/
def matchUrlAt : Str → Option Str
  | '<' :: rest =>
    let run := rest.takeWhile (fun c => c != '\n')
    match lastIdxOf '>' run with
    | some j => if 1 ≤ j then some (run.take j) else none
    | none => none
  | _ => none

/-- LinkHeader::get_only_capture with LINK_RE: leftmost-first search of
the pattern <(.+)> over the whole component. -/
def getUrlCapture : Str → Option Str
  | [] => none
  | c :: rest =>
    match matchUrlAt (c :: rest) with
    | some g => some g
    | none => getUrlCapture rest

/-- The part of REL_RE after the literal rel= : an optional (greedy)
double quote, then a greedy non-empty run of non-quote characters,
then an optional closing quote.  Returns the capture group. -/
def relValue (rest : Str) : Option Str :=
  match rest with
  | '"' :: r2 =>
    let g := r2.takeWhile (fun c => c != '"')
    if g.isEmpty then none else some g
  | r =>
    let g := r.takeWhile (fun c => c != '"')
    if g.isEmpty then none else some g

/-- Tries to match REL_RE at the head of the input. -/
def matchRelAt : Str → Option Str
  | 'r' :: 'e' :: 'l' :: '=' :: rest => relValue rest
  | _ => none

/-- LinkHeader::get_only_capture with REL_RE: leftmost-first search. -/
def getRelCapture : Str → Option Str
  | [] => none
  | c :: rest =>
    match matchRelAt (c :: rest) with
    | some g => some g
    | none => getRelCapture rest

/- ----------------------------------------------------------------
   Link-header data model and parser (main.rs lines 55-117).
   ---------------------------------------------------------------- -/

structure LinkItem where
  url : Str
  rel : Str
deriving DecidableEq, Repr

structure LinkHeader where
  items : List LinkItem
deriving DecidableEq, Repr

/-- Classification of the failure conditions of LinkHeader::parse_item.
The source returns a single anyhow error for both branches; the spec
taxonomy names the condition in which the URL capture fails
malformedLink and the condition in which every attribute part lacks a
rel capture missingRelation, and the two reach the error through
distinct paths (url = None versus the exhausted attribute scan). -/
inductive ParseError where
  | malformedLink
  | missingRelation
deriving DecidableEq, Repr

/-- Scan of the attribute components for the first rel capture
(the for loop of parse_item, main.rs lines 100-104). -/
def findRel : List Str → Option Str
  | [] => none
  | comp :: comps =>
    match getRelCapture comp with
    | some r => some r
    | none => findRel comps

/-- LinkHeader::parse_item (main.rs lines 86-107): split the item on
semicolons, extract the URL capture from the first component, then scan
the remaining components for a rel capture. -/
def LinkHeader.parse_item (item : Str) : Except ParseError LinkItem :=
  match splitOnChar ';' item with
  | [] => .error .malformedLink
  | urlComp :: attrs =>
    match getUrlCapture urlComp with
    | none => .error .malformedLink
    | some url =>
      match findRel attrs with
      | some rel => .ok ⟨url, rel⟩
      | none => .error .missingRelation

/-- The item loop of LinkHeader::create (main.rs lines 69-72): parse
every comma-separated part in order, aborting at the first failure. -/
def createItems : List Str → Except ParseError (List LinkItem)
  | [] => .ok []
  | p :: ps =>
    match LinkHeader.parse_item p with
    | .error e => .error e
    | .ok it =>
      match createItems ps with
      | .error e => .error e
      | .ok its => .ok (it :: its)

/-- LinkHeader::create (main.rs lines 65-75). -/
def LinkHeader.create (h : Str) : Except ParseError LinkHeader :=
  match createItems (splitOnChar ',' h) with
  | .error e => .error e
  | .ok its => .ok ⟨its⟩

/-- The loop of LinkHeader::find_rel (main.rs lines 110-115). -/
def findRelItemAux (rel : Str) : List LinkItem → Option LinkItem
  | [] => none
  | it :: its => if it.rel = rel then some it else findRelItemAux rel its

/-- LinkHeader::find_rel (main.rs lines 109-116): first item whose
relation equals the query exactly. -/
def LinkHeader.find_rel (lh : LinkHeader) (rel : Str) : Option LinkItem :=
  findRelItemAux rel lh.items

example : LinkHeader.create ("<http://foo.bar/baz>; rel=\"next\"".toList)
    = .ok ⟨[⟨"http://foo.bar/baz".toList, "next".toList⟩]⟩ := by rfl

/- ----------------------------------------------------------------
   Url::parse_with_params (main.rs line 142).
   The url crate appends the extra pairs to the existing query string
   verbatim: query_pairs_mut serializes each new pair after the
   current query, inserting an ampersand when the current query is
   non-empty, and introducing a question mark when the URL had no
   query.  Host normalization and percent-encoding are not modelled;
   the appended pair here (per_page=100) needs no encoding.
   ---------------------------------------------------------------- -/

/-- Serializes one query pair as key=value. -/
def serializePair (p : Str × Str) : Str := p.1 ++ '=' :: p.2

/-- Appends one query pair to a URL string, the way the url crate's
pair serializer does. -/
def appendPair (u : Str) (p : Str × Str) : Str :=
  match splitAtFirst '?' u with
  | (before, none) => before ++ '?' :: serializePair p
  | (before, some q) =>
    if q = [] then before ++ '?' :: serializePair p
    else before ++ '?' :: (q ++ '&' :: serializePair p)

/-- Url::parse_with_params: parse the URL and append every given pair
to its query string. -/
def parse_with_params (u : Str) (ps : List (Str × Str)) : Str :=
  ps.foldl appendPair u

/-- One pair of a query string, split at the first equals sign
(form_urlencoded semantics: a pair without an equals sign has an
empty value). -/
def parsePair (kv : Str) : Str × Str :=
  match splitOnChar '=' kv with
  | [] => ([], [])
  | k :: rest => (k, joinSep '=' rest)

/-- form_urlencoded::parse over a query string: split on ampersands,
skip empty pieces, split each piece at its first equals sign. -/
def parseQueryPairs (q : Str) : List (Str × Str) :=
  ((splitOnChar '&' q).filter (fun piece => !piece.isEmpty)).map parsePair

/-- The query string of a URL, when it has one. -/
def queryOf (u : Str) : Option Str := (splitAtFirst '?' u).2

/-- The decoded query pairs of a URL. -/
def queryPairsOf (u : Str) : List (Str × Str) :=
  match queryOf u with
  | none => []
  | some q => parseQueryPairs q

/-- Everything before the query string of a URL. -/
def preQueryOf (u : Str) : Str := (splitAtFirst '?' u).1

/-- The page-size pair fetch_repos merges into the starting URL
(main.rs line 142). -/
def perPagePair : Str × Str := ("per_page".toList, "100".toList)

/-- The initial request URL of fetch_repos (main.rs lines 142-143). -/
def initialUrl (repos_url : Str) : Str := parse_with_params repos_url [perPagePair]

/- ----------------------------------------------------------------
   The pagination loop of GithubClient::fetch_repos
   (main.rs lines 141-176).

   The HTTP transport is a function from the request URL to the
   response (its optional Link header value and its body); serde's
   Vec::<Repo> decoding is a function from the body to an optional
   repository list.  The loop is given fuel because the source loop
   does not terminate on a cyclic next chain; none signals exhausted
   fuel and never occurs in any claim below.  Alongside the result the
   model returns the list of requested URLs in order.
   ---------------------------------------------------------------- -/

structure Repo where
  name : Str
  ssh_url : Str
deriving DecidableEq, Repr

structure Org where
  login : Str
  repos_url : Str
  description : Str
deriving DecidableEq, Repr

structure Response where
  link : Option Str
  body : Str
deriving DecidableEq, Repr

/-- Spec taxonomy for the fatal failures of a fetch: badPagination
wraps a Link-header parse failure propagated at main.rs line 157,
badPayload is a body-decode failure propagated at main.rs line 169. -/
inductive FetchError where
  | badPagination (e : ParseError)
  | badPayload
deriving DecidableEq, Repr

/-- The relation name fetch_repos follows (main.rs line 158). -/
def nextRel : Str := "next".toList

/-- The loop body of fetch_repos: check the Link header before
decoding, return the accumulator untouched when the header is absent,
propagate a header parse failure, otherwise record the next URL and
whether more results are pending, then decode and append this page's
body, and stop or continue on the pending flag. -/
def fetchReposAux (server : Str → Response) (decode : Str → Option (List Repo)) :
    Nat → Str → List Repo → List Str →
    Option (Except FetchError (List Repo) × List Str)
  | 0, _, _, _ => none
  | fuel + 1, currentUrl, allResults, trace =>
    let response := server currentUrl
    let trace2 := trace ++ [currentUrl]
    match response.link with
    | none => some (.ok allResults, trace2)
    | some hv =>
      match LinkHeader.create hv with
      | .error e => some (.error (.badPagination e), trace2)
      | .ok link =>
        let step : Str × Bool :=
          match link.find_rel nextRel with
          | some item => (item.url, true)
          | none => (currentUrl, false)
        match decode response.body with
        | none => some (.error .badPayload, trace2)
        | some repos =>
          if step.2 then
            fetchReposAux server decode fuel step.1 (allResults ++ repos) trace2
          else
            some (.ok (allResults ++ repos), trace2)

/-- GithubClient::fetch_repos (main.rs lines 141-176): merge the
page-size pair into the starting URL and run the pagination loop with
an empty accumulator. -/
def fetch_repos (server : Str → Response) (decode : Str → Option (List Repo))
    (fuel : Nat) (repos_url : Str) :
    Option (Except FetchError (List Repo) × List Str) :=
  fetchReposAux server decode fuel (initialUrl repos_url) [] []

/-- The fixed organizations endpoint (main.rs line 180). -/
def orgsUrl : Str := "https://api.github.com/user/orgs".toList

/-- GithubClient::fetch_orgs (main.rs lines 177-188): one GET against
the fixed endpoint, decode the body, return.  Alongside the result the
model returns the list of requested URLs. -/
def fetch_orgs (server : Str → Response) (decodeOrgs : Str → Option (List Org)) :
    Except FetchError (List Org) × List Str :=
  let response := server orgsUrl
  match decodeOrgs response.body with
  | none => (.error .badPayload, [orgsUrl])
  | some orgs => (.ok orgs, [orgsUrl])

/- ----------------------------------------------------------------
   show_menu (main.rs lines 191-220).

   The rustyline editor is modelled as a finite list of read results:
   a line, or a failed read (end-of-input or interruption).  An
   exhausted list behaves like end-of-input.  The per-line processing
   is Rust's str::trim followed by str::parse::<i32>.
   ---------------------------------------------------------------- -/

inductive ReadResult where
  | line (s : Str)
  | eof
deriving DecidableEq, Repr

/-- char::is_whitespace (the Unicode White_Space property), used by
str::trim. -/
def isRustWS (c : Char) : Bool :=
  c == ' ' || c == '\t' || c == '\n' || c == '\r' || c == '\x0b' || c == '\x0c' ||
  c == '\u0085' || c == '\u00a0' || c == '\u1680' ||
  ('\u2000' ≤ c && c ≤ '\u200a') ||
  c == '\u2028' || c == '\u2029' || c == '\u202f' || c == '\u205f' || c == '\u3000'

/-- str::trim: drops whitespace from both ends. -/
def rustTrim (l : Str) : Str :=
  ((l.dropWhile isRustWS).reverse.dropWhile isRustWS).reverse

/-- Numeric value of an ASCII digit. -/
def digitVal (c : Char) : Nat := c.toNat - 48

/-- Decimal value of a non-empty all-ASCII-digit string. -/
def parseDigits (l : Str) : Option Nat :=
  if l = [] then none
  else if l.all Char.isDigit then
    some (l.foldl (fun acc c => acc * 10 + digitVal c) 0)
  else none

/-- str::parse::<i32>: an optional sign, one or more ASCII digits, and
the value must fit in a 32-bit signed integer. -/
def parseI32 (s : Str) : Option Int :=
  let signed : Int × Str :=
    match s with
    | '+' :: r => (1, r)
    | '-' :: r => (-1, r)
    | r => (1, r)
  match parseDigits signed.2 with
  | none => none
  | some v =>
    let n : Int := signed.1 * (v : Int)
    if n < -2147483648 ∨ 2147483647 < n then none else some n

/-- show_menu (main.rs lines 191-220): read lines until one trims and
parses to an integer between 1 and the item count (return that value
minus one), re-prompting on anything else; a failed read returns none. -/
def show_menu {α : Type} (items : List α) : List ReadResult → Option Nat
  | [] => none
  | .eof :: _ => none
  | .line l :: rest =>
    match parseI32 (rustTrim l) with
    | none => show_menu items rest
    | some n =>
      if n < 1 ∨ (items.length : Int) < n then show_menu items rest
      else some (n - 1).toNat

/- ----------------------------------------------------------------
   run_clone and the clone loop of main (main.rs lines 248-255 and
   268-271).

   The git child process is a function from the clone URL and working
   directory to either a launch failure (Command::spawn or
   wait_with_output returning Err) or the process output.  The loop in
   main applies the question-mark operator to each run_clone call, so
   a launch failure aborts the loop; the returned Output is otherwise
   discarded.  Alongside the result the model returns the list of
   clone URLs attempted, in order.
   ---------------------------------------------------------------- -/

structure Output where
  success : Bool
deriving DecidableEq, Repr

/-- run_clone (main.rs lines 248-255): invoke git clone and wait. -/
def run_clone (git : Str → Str → Except Unit Output) (ssh_url : Str) (dir : Str) :
    Except Unit Output :=
  git ssh_url dir

/-- The clone loop of main (main.rs lines 269-271). -/
def cloneAll (git : Str → Str → Except Unit Output) (dir : Str) :
    List Repo → Except Unit Unit × List Str
  | [] => (.ok (), [])
  | repo :: rest =>
    match run_clone git repo.ssh_url dir with
    | .error e => (.error e, [repo.ssh_url])
    | .ok _ =>
      let r := cloneAll git dir rest
      (r.1, repo.ssh_url :: r.2)

/-- The comma-separated item of a header in the URL position
(the component consumed first by parse_item). -/
def urlComponent (p : Str) : Str := (splitOnChar ';' p).headD []

/-- The attribute components of a header item (everything after the
URL component). -/
def attrComponents (p : Str) : List Str := (splitOnChar ';' p).tail

/- ----------------------------------------------------------------
   Concrete transports, decoders and repositories used below to
   evaluate the model at specific inputs.
   ---------------------------------------------------------------- -/

/-- A Link header value announcing the given URL as the next page. -/
def mkNextLink (t : Str) : Str := '<' :: (t ++ '>' :: "; rel=\"next\"".toList)

def c1Url : Str := "https://api.example.com/orgs/acme/repos".toList

def repo0 : Repo := ⟨"alpha".toList, "git@github.com:acme/alpha.git".toList⟩

/-- A transport whose every response is a single page with no Link
header. -/
def c1Server : Str → Response := fun _ => ⟨none, "page1".toList⟩

/-- A decoder under which that page's body holds one repository. -/
def c1Decode : Str → Option (List Repo) :=
  fun b => if b = "page1".toList then some [repo0] else none

def c2Page2 : Str := "https://api.example.com/orgs/acme/repos?page=2".toList

def c2Page3 : Str := "https://api.example.com/orgs/acme/repos?page=3".toList

def rp (k : String) : Repo := ⟨k.toList, k.toList⟩

/-- A transport serving three pages: the first two carry a Link header
with a next relation, the third carries no Link header. -/
def c2Server : Str → Response := fun u =>
  if u = initialUrl c1Url then ⟨some (mkNextLink c2Page2), "b1".toList⟩
  else if u = c2Page2 then ⟨some (mkNextLink c2Page3), "b2".toList⟩
  else if u = c2Page3 then ⟨none, "b3".toList⟩
  else ⟨none, []⟩

/-- A decoder yielding two repositories for each of the first two
pages and one for the third. -/
def c2Decode : Str → Option (List Repo) := fun b =>
  if b = "b1".toList then some [rp "r1", rp "r2"]
  else if b = "b2".toList then some [rp "r3", rp "r4"]
  else if b = "b3".toList then some [rp "r5"]
  else none

/-- A transport whose first response carries a Link header that does
not parse. -/
def c3Server : Str → Response := fun _ => ⟨some "garbage".toList, "b1".toList⟩

def c3Decode : Str → Option (List Repo) := fun _ => some []

def c3bPage2 : Str := "https://api.example.com/orgs/acme/repos?page=2".toList

/-- A transport whose first page carries a well-formed next link and
whose second page carries a Link header that does not parse. -/
def c3bServer : Str → Response := fun u =>
  if u = initialUrl c1Url then ⟨some (mkNextLink c3bPage2), "b1".toList⟩
  else if u = c3bPage2 then ⟨some "garbage".toList, "b2".toList⟩
  else ⟨none, []⟩

/-- A decoder that only understands page 1's body, so a successful
decode of page 2 is impossible: any answer other than badPagination
would be visible. -/
def c3bDecode : Str → Option (List Repo) := fun b =>
  if b = "b1".toList then some [rp "r1", rp "r2"] else none

def c6Page2 : Str := "https://api.github.com/user/orgs?page=2".toList

def orgA : Org :=
  ⟨"acme".toList, "https://api.example.com/orgs/acme/repos".toList, "d".toList⟩

def orgB : Org :=
  ⟨"beta".toList, "https://api.example.com/orgs/beta/repos".toList, "e".toList⟩

/-- A transport whose organizations response carries a well-formed Link
header pointing at a second page of organizations. -/
def c6Server : Str → Response := fun u =>
  if u = orgsUrl then ⟨some (mkNextLink c6Page2), "o1".toList⟩
  else ⟨none, "o2".toList⟩

def c6Decode : Str → Option (List Org) := fun b =>
  if b = "o1".toList then some [orgA]
  else if b = "o2".toList then some [orgB]
  else none

def c7Dir : Str := "/home/user/export".toList

def c7Repos : List Repo := [⟨"r1".toList, "u1".toList⟩, ⟨"r2".toList, "u2".toList⟩]

/-- A git invoker that always fails to launch. -/
def gitNoLaunch : Str → Str → Except Unit Output := fun _ _ => .error ()

/-- A git invoker that always launches and always exits non-zero. -/
def gitExitFail : Str → Str → Except Unit Output := fun _ _ => .ok ⟨false⟩

/-- A three-item menu over plain labels. -/
def menu3 : List Str := ["a".toList, "b".toList, "c".toList]

/-- A header with two items carrying the same relation. -/
def dupHeader : LinkHeader :=
  ⟨[⟨"u1".toList, "next".toList⟩, ⟨"u2".toList, "next".toList⟩]⟩

/- ----------------------------------------------------------------
   Helper lemmas about the string utilities.
   ---------------------------------------------------------------- -/

lemma splitOnChar_ne_nil (c : Char) (l : Str) : splitOnChar c l ≠ [] := by
  induction l with
  | nil => simp [splitOnChar]
  | cons x xs ih =>
    by_cases hx : x = c
    · simp [splitOnChar, hx]
    · simp only [splitOnChar, if_neg hx]
      rcases h : splitOnChar c xs with _ | ⟨y, ys⟩
      · exact absurd h ih
      · simp

lemma splitOnChar_append (c : Char) (a b : Str) :
    splitOnChar c (a ++ c :: b) = splitOnChar c a ++ splitOnChar c b := by
  induction a with
  | nil => simp [splitOnChar]
  | cons x xs ih =>
    by_cases hx : x = c
    · simp [splitOnChar, hx, ih]
    · simp only [List.cons_append, splitOnChar, if_neg hx]
      rcases h : splitOnChar c xs with _ | ⟨y, ys⟩
      · exact absurd h (splitOnChar_ne_nil c xs)
      · simp [h, ih]

lemma splitAtFirst_sec_none (c : Char) (l : Str)
    (h : (splitAtFirst c l).2 = none) : (splitAtFirst c l).1 = l := by
  induction l with
  | nil => rfl
  | cons x xs ih =>
    by_cases hx : x = c
    · simp [splitAtFirst, hx] at h
    · simp only [splitAtFirst, if_neg hx] at h ⊢
      exact congrArg (x :: ·) (ih h)

lemma splitAtFirst_not_mem (c : Char) (l : Str) : c ∉ (splitAtFirst c l).1 := by
  induction l with
  | nil => simp [splitAtFirst]
  | cons x xs ih =>
    by_cases hx : x = c
    · simp [splitAtFirst, hx]
    · simp only [splitAtFirst, if_neg hx, List.mem_cons]
      rintro (h | h)
      · exact hx h.symm
      · exact ih h

lemma splitAtFirst_eq_some (c : Char) (l a b : Str)
    (h : splitAtFirst c l = (a, some b)) : l = a ++ c :: b := by
  induction l generalizing a with
  | nil => simp [splitAtFirst] at h
  | cons x xs ih =>
    by_cases hx : x = c
    · simp only [splitAtFirst, if_pos hx, Prod.mk.injEq] at h
      rcases h with ⟨ha, hb⟩
      subst ha
      cases hb
      simp [hx]
    · simp only [splitAtFirst, if_neg hx, Prod.mk.injEq] at h
      rcases h with ⟨ha, hb⟩
      subst ha
      have hxs : splitAtFirst c xs = ((splitAtFirst c xs).1, some b) := by
        rw [← hb]
      have h2 := ih ((splitAtFirst c xs).1) hxs
      simp only [List.cons_append]
      exact congrArg (x :: ·) h2

lemma splitAtFirst_append_of_not_mem (c : Char) (a b : Str) (ha : c ∉ a) :
    splitAtFirst c (a ++ c :: b) = (a, some b) := by
  induction a with
  | nil => simp [splitAtFirst]
  | cons x xs ih =>
    have hx : ¬ x = c := fun h => ha (by simp [h])
    have hxs : c ∉ xs := fun h => ha (List.mem_cons_of_mem _ h)
    simp only [List.cons_append, List.append_eq, splitAtFirst, if_neg hx, ih hxs]

lemma parseQueryPairs_perPage :
    parseQueryPairs (serializePair perPagePair) = [perPagePair] := by rfl

lemma parseQueryPairs_append_pair (qs : Str) :
    parseQueryPairs (qs ++ '&' :: serializePair perPagePair) =
      parseQueryPairs qs ++ [perPagePair] := by
  show ((splitOnChar '&' (qs ++ '&' :: serializePair perPagePair)).filter
      (fun piece => !piece.isEmpty)).map parsePair = _
  rw [splitOnChar_append, List.filter_append, List.map_append]
  exact congrArg (parseQueryPairs qs ++ ·) parseQueryPairs_perPage

lemma fetchReposAux_trace (server : Str → Response) (decode : Str → Option (List Repo)) :
    ∀ (fuel : Nat) (u : Str) (acc : List Repo) (tr : List Str) res tr2,
      fetchReposAux server decode fuel u acc tr = some (res, tr2) →
      ∃ rest, tr2 = tr ++ u :: rest := by
  intro fuel
  induction fuel with
  | zero =>
    intro u acc tr res tr2 h
    simp [fetchReposAux] at h
  | succ f ih =>
    intro u acc tr res tr2 h
    simp only [fetchReposAux] at h
    split at h
    · cases h
      exact ⟨[], by simp⟩
    · split at h
      · cases h
        exact ⟨[], by simp⟩
      · split at h
        · cases h
          exact ⟨[], by simp⟩
        · split at h
          · obtain ⟨rest2, hrest⟩ := ih _ _ _ _ _ h
            subst hrest
            exact ⟨_, by rw [List.append_assoc, List.singleton_append]⟩
          · cases h
            exact ⟨[], by simp⟩

/- ----------------------------------------------------------------
   Helper lemmas about find_rel, createItems and show_menu.
   ---------------------------------------------------------------- -/

lemma findRelItemAux_mem (r : Str) (l : List LinkItem) (it : LinkItem)
    (h : findRelItemAux r l = some it) : it ∈ l ∧ it.rel = r := by
  induction l with
  | nil => simp [findRelItemAux] at h
  | cons a l ih =>
    by_cases ha : a.rel = r
    · simp only [findRelItemAux, if_pos ha, Option.some.injEq] at h
      subst h
      exact ⟨List.mem_cons_self a l, ha⟩
    · simp only [findRelItemAux, if_neg ha] at h
      obtain ⟨hm, hr⟩ := ih h
      exact ⟨List.mem_cons_of_mem a hm, hr⟩

lemma findRelItemAux_first (r : Str) (l : List LinkItem) :
    ∀ (i : Nat) (hi : i < l.length), (l.get ⟨i, hi⟩).rel = r →
      (∀ (j : Nat) (hj : j < i), (l.get ⟨j, by omega⟩).rel ≠ r) →
      findRelItemAux r l = some (l.get ⟨i, hi⟩) := by
  induction l with
  | nil => intro i hi; simp at hi
  | cons a l ih =>
    intro i hi hrel hbefore
    cases i with
    | zero =>
      simp only [List.get] at hrel ⊢
      simp [findRelItemAux, hrel]
    | succ i =>
      have ha : a.rel ≠ r := by
        have := hbefore 0 (Nat.succ_pos i)
        simpa using this
      simp only [findRelItemAux, if_neg ha]
      have hi2 : i < l.length := Nat.lt_of_succ_lt_succ hi
      have := ih i hi2 (by simpa using hrel)
        (fun j hj => by
          have := hbefore (j + 1) (Nat.succ_lt_succ hj)
          simpa using this)
      simpa using this

lemma findRelItemAux_none (r : Str) (l : List LinkItem) :
    findRelItemAux r l = none ↔ ∀ it ∈ l, it.rel ≠ r := by
  induction l with
  | nil => simp [findRelItemAux]
  | cons a l ih =>
    by_cases ha : a.rel = r
    · simp [findRelItemAux, ha]
    · simp [findRelItemAux, ha, ih]

lemma createItems_ok (ps : List Str) (its : List LinkItem)
    (h : createItems ps = .ok its) :
    its.length = ps.length ∧
    ∀ (i : Nat) (p : Str), ps[i]? = some p →
      ∃ it, its[i]? = some it ∧ LinkHeader.parse_item p = .ok it := by
  induction ps generalizing its with
  | nil =>
    simp only [createItems, Except.ok.injEq] at h
    subst h
    simp
  | cons p ps ih =>
    simp only [createItems] at h
    rcases hp : LinkHeader.parse_item p with e | it
    · rw [hp] at h; cases h
    · rw [hp] at h
      rcases hrec : createItems ps with e | its2
      · rw [hrec] at h; cases h
      · rw [hrec] at h
        cases h
        obtain ⟨hlen, hall⟩ := ih its2 hrec
        refine ⟨by simp [hlen], ?_⟩
        intro i q hq
        cases i with
        | zero =>
          simp only [List.getElem?_cons_zero, Option.some.injEq] at hq
          subst hq
          exact ⟨it, by simp, hp⟩
        | succ i =>
          simp only [List.getElem?_cons_succ] at hq ⊢
          exact hall i q hq

lemma createItems_error_iff (ps : List Str) (e : ParseError) :
    createItems ps = .error e ↔
      ∃ (i : Nat) (p : Str), ps[i]? = some p ∧
        LinkHeader.parse_item p = .error e ∧
        ∀ (j : Nat) (q : Str), j < i → ps[j]? = some q →
          ∃ it, LinkHeader.parse_item q = .ok it := by
  induction ps with
  | nil =>
    simp [createItems]
  | cons p ps ih =>
    constructor
    · intro h
      simp only [createItems] at h
      rcases hp : LinkHeader.parse_item p with e2 | it
      · rw [hp] at h
        cases h
        exact ⟨0, p, by simp, hp, fun j q hj => absurd hj (Nat.not_lt_zero j)⟩
      · rw [hp] at h
        rcases hrec : createItems ps with e2 | its2
        · rw [hrec] at h
          cases h
          obtain ⟨i, q, hq, herr, hbefore⟩ := ih.mp hrec
          refine ⟨i + 1, q, by simpa using hq, herr, ?_⟩
          intro j q2 hj hq2
          cases j with
          | zero =>
            simp only [List.getElem?_cons_zero, Option.some.injEq] at hq2
            subst hq2
            exact ⟨it, hp⟩
          | succ j =>
            simp only [List.getElem?_cons_succ] at hq2
            exact hbefore j q2 (Nat.lt_of_succ_lt_succ hj) hq2
        · rw [hrec] at h; cases h
    · rintro ⟨i, q, hq, herr, hbefore⟩
      simp only [createItems]
      cases i with
      | zero =>
        simp only [List.getElem?_cons_zero, Option.some.injEq] at hq
        subst hq
        rw [herr]
      | succ i =>
        obtain ⟨it, hit⟩ := hbefore 0 p (Nat.succ_pos i) (by simp)
        rw [hit]
        simp only [List.getElem?_cons_succ] at hq
        have : createItems ps = .error e := by
          refine ih.mpr ⟨i, q, hq, herr, ?_⟩
          intro j q2 hj hq2
          exact hbefore (j + 1) q2 (Nat.succ_lt_succ hj) (by simpa using hq2)
        rw [this]

/- ----------------------------------------------------------------
   Claim theorems.
   ---------------------------------------------------------------- -/

/-- C9: for every starting URL, the initial request URL of the
paginated fetch is the starting URL with the per_page=100 pair merged
into its query string, preserving everything before the query and
every query pair already present; and the first URL fetch_repos
requests is exactly that initial URL. -/
theorem fetch_repos_initial_url (u : Str) :
    preQueryOf (initialUrl u) = preQueryOf u
  ∧ queryPairsOf (initialUrl u) = queryPairsOf u ++ [perPagePair]
  ∧ (∀ (server : Str → Response) (decode : Str → Option (List Repo))
       (fuel : Nat) (res : Except FetchError (List Repo)) (tr : List Str),
       fetch_repos server decode (fuel + 1) u = some (res, tr) →
       tr.head? = some (initialUrl u)) := by
  have hiu : initialUrl u = appendPair u perPagePair := rfl
  rcases hq : splitAtFirst '?' u with ⟨before, q⟩
  have hb : '?' ∉ before := by
    have h2 := splitAtFirst_not_mem '?' u
    rw [hq] at h2
    exact h2
  have htrace : ∀ (server : Str → Response) (decode : Str → Option (List Repo))
      (fuel : Nat) (res : Except FetchError (List Repo)) (tr : List Str),
      fetch_repos server decode (fuel + 1) u = some (res, tr) →
      tr.head? = some (initialUrl u) := by
    intro server decode fuel res tr h
    obtain ⟨rest, hrest⟩ :=
      fetchReposAux_trace server decode (fuel + 1) (initialUrl u) [] [] res tr h
    rw [hrest]
    simp
  rcases q with _ | qs
  · have hu : before = u := by
      have h2 := splitAtFirst_sec_none '?' u (by rw [hq])
      rw [hq] at h2
      exact h2
    have happ : appendPair u perPagePair = before ++ '?' :: serializePair perPagePair := by
      show (match splitAtFirst '?' u with
        | (before, none) => before ++ '?' :: serializePair perPagePair
        | (before, some q) =>
          if q = [] then before ++ '?' :: serializePair perPagePair
          else before ++ '?' :: (q ++ '&' :: serializePair perPagePair)) = _
      rw [hq]
    refine ⟨?_, ?_, htrace⟩
    · rw [hiu, happ]
      show (splitAtFirst '?' (before ++ '?' :: serializePair perPagePair)).1 = _
      rw [splitAtFirst_append_of_not_mem '?' before _ hb]
      show before = (splitAtFirst '?' u).1
      rw [hq]
    · rw [hiu, happ]
      show (match (splitAtFirst '?' (before ++ '?' :: serializePair perPagePair)).2 with
        | none => ([] : List (Str × Str))
        | some q => parseQueryPairs q) = _
      rw [splitAtFirst_append_of_not_mem '?' before _ hb]
      show parseQueryPairs (serializePair perPagePair) = queryPairsOf u ++ [perPagePair]
      rw [parseQueryPairs_perPage]
      show _ = (match (splitAtFirst '?' u).2 with
        | none => ([] : List (Str × Str))
        | some q => parseQueryPairs q) ++ [perPagePair]
      rw [hq]
      simp
  · have hu2 : u = before ++ '?' :: qs := splitAtFirst_eq_some '?' u before qs hq
    have hqp : queryPairsOf u = parseQueryPairs qs := by
      show (match (splitAtFirst '?' u).2 with
        | none => ([] : List (Str × Str))
        | some q => parseQueryPairs q) = _
      rw [hq]
    have hpre : preQueryOf u = before := by
      show (splitAtFirst '?' u).1 = before
      rw [hq]
    by_cases hqs : qs = []
    · subst hqs
      have happ : appendPair u perPagePair = before ++ '?' :: serializePair perPagePair := by
        show (match splitAtFirst '?' u with
          | (before, none) => before ++ '?' :: serializePair perPagePair
          | (before, some q) =>
            if q = [] then before ++ '?' :: serializePair perPagePair
            else before ++ '?' :: (q ++ '&' :: serializePair perPagePair)) = _
        rw [hq]
        simp
      refine ⟨?_, ?_, htrace⟩
      · rw [hiu, happ, hpre]
        show (splitAtFirst '?' (before ++ '?' :: serializePair perPagePair)).1 = _
        rw [splitAtFirst_append_of_not_mem '?' before _ hb]
      · rw [hiu, happ, hqp]
        show (match (splitAtFirst '?' (before ++ '?' :: serializePair perPagePair)).2 with
          | none => ([] : List (Str × Str))
          | some q => parseQueryPairs q) = _
        rw [splitAtFirst_append_of_not_mem '?' before _ hb]
        show parseQueryPairs (serializePair perPagePair) = parseQueryPairs [] ++ [perPagePair]
        rw [parseQueryPairs_perPage]
        rfl
    · have happ : appendPair u perPagePair =
          before ++ '?' :: (qs ++ '&' :: serializePair perPagePair) := by
        show (match splitAtFirst '?' u with
          | (before, none) => before ++ '?' :: serializePair perPagePair
          | (before, some q) =>
            if q = [] then before ++ '?' :: serializePair perPagePair
            else before ++ '?' :: (q ++ '&' :: serializePair perPagePair)) = _
        rw [hq]
        simp [hqs]
      refine ⟨?_, ?_, htrace⟩
      · rw [hiu, happ, hpre]
        show (splitAtFirst '?' (before ++ '?' :: (qs ++ '&' :: serializePair perPagePair))).1 = _
        rw [splitAtFirst_append_of_not_mem '?' before _ hb]
      · rw [hiu, happ, hqp]
        show (match (splitAtFirst '?' (before ++ '?' :: (qs ++ '&' :: serializePair perPagePair))).2 with
          | none => ([] : List (Str × Str))
          | some q => parseQueryPairs q) = _
        rw [splitAtFirst_append_of_not_mem '?' before _ hb]
        exact parseQueryPairs_append_pair qs

/-- Witness for fetch_repos_initial_url at a URL that already carries a
query parameter, with the trace conjunct discharged on a concrete
one-page transport. -/
theorem fetch_repos_initial_url_witness :
    queryPairsOf (initialUrl ("https://x/y?a=b".toList)) =
      queryPairsOf ("https://x/y?a=b".toList) ++ [perPagePair]
  ∧ List.head? [initialUrl ("https://x/y?a=b".toList)] =
      some (initialUrl ("https://x/y?a=b".toList)) :=
  ⟨(fetch_repos_initial_url ("https://x/y?a=b".toList)).2.1,
   (fetch_repos_initial_url ("https://x/y?a=b".toList)).2.2 c1Server c1Decode 0
     (.ok []) [initialUrl ("https://x/y?a=b".toList)] rfl⟩

/-- C3: whenever the response at the CURRENT request of the pagination
loop carries a Link header that fails to parse, the loop stops
immediately with BadPagination: for every loop state (any accumulator
of already-fetched pages and any request trace so far) the result is
the parse failure, exactly one further request is issued, the page is
not decoded (the statement holds for every decoder), and the partial
accumulator is never returned as a success; in particular a failure on
the very first response makes fetch_repos fail after exactly one
request. -/
theorem fetch_repos_bad_pagination (server : Str → Response)
    (decode : Str → Option (List Repo)) (hv : Str) (e : ParseError)
    (herr : LinkHeader.create hv = .error e) :
    (∀ (u : Str) (fuel : Nat) (acc : List Repo) (tr : List Str),
        (server u).link = some hv →
        fetchReposAux server decode (fuel + 1) u acc tr =
          some (.error (.badPagination e), tr ++ [u]))
  ∧ (∀ (url : Str) (fuel : Nat), 1 ≤ fuel →
        (server (initialUrl url)).link = some hv →
        fetch_repos server decode fuel url =
          some (.error (.badPagination e), [initialUrl url])) := by
  have hstep : ∀ (u : Str) (fuel : Nat) (acc : List Repo) (tr : List Str),
      (server u).link = some hv →
      fetchReposAux server decode (fuel + 1) u acc tr =
        some (.error (.badPagination e), tr ++ [u]) := by
    intro u fuel acc tr hlink
    simp [fetchReposAux, hlink, herr]
  refine ⟨hstep, ?_⟩
  intro url fuel hfuel hlink
  obtain ⟨f, rfl⟩ : ∃ f, fuel = f + 1 := ⟨fuel - 1, by omega⟩
  exact hstep (initialUrl url) f [] [] hlink

/-- Witness for fetch_repos_bad_pagination exercising the
mid-sequence case: page 1 is fetched and decoded, page 2's Link header
does not parse, and the whole run ends in BadPagination with a
two-request trace — the two already-accumulated repositories are not
returned. -/
theorem fetch_repos_bad_pagination_witness :
    fetch_repos c3bServer c3bDecode 7 c1Url =
      some (.error (.badPagination .malformedLink),
        [initialUrl c1Url, c3bPage2]) := by
  have h := (fetch_repos_bad_pagination c3bServer c3bDecode ("garbage".toList)
      .malformedLink rfl).1 c3bPage2 5 [rp "r1", rp "r2"] [initialUrl c1Url] rfl
  calc fetch_repos c3bServer c3bDecode 7 c1Url
      = fetchReposAux c3bServer c3bDecode 6 c3bPage2 [rp "r1", rp "r2"]
          [initialUrl c1Url] := by rfl
    _ = some (.error (.badPagination .malformedLink),
          [initialUrl c1Url] ++ [c3bPage2]) := h
    _ = some (.error (.badPagination .malformedLink),
          [initialUrl c1Url, c3bPage2]) := by rfl

/-- C1: evaluation of the source loop on a single-page response that
carries no Link header.  The body decodes to one repository, yet
fetch_repos answers after one request with the EMPTY list: the None
branch of the Link match (main.rs lines 164-166) returns the
accumulator without decoding the final page. -/
theorem fetch_repos_no_link_drops_page :
    fetch_repos c1Server c1Decode 5 c1Url = some (.ok [], [initialUrl c1Url])
  ∧ c1Decode (c1Server (initialUrl c1Url)).body = some [repo0] := ⟨rfl, rfl⟩

/-- C2: evaluation of the source loop on the mocked 3-page sequence in
which pages 1 and 2 carry a next Link and page 3 carries no Link
header.  Exactly 3 requests are issued, but the returned sequence
holds only pages 1 and 2: page 3's body (which decodes to one more
repository) is dropped by the same None branch as in C1. -/
theorem fetch_repos_three_pages_drops_last :
    fetch_repos c2Server c2Decode 9 c1Url =
      some (.ok [rp "r1", rp "r2", rp "r3", rp "r4"],
        [initialUrl c1Url, c2Page2, c2Page3])
  ∧ c2Decode (c2Server c2Page3).body = some [rp "r5"]
  ∧ (c2Server c2Page3).link = none := ⟨rfl, rfl, rfl⟩

/-- C6 counterexample: the organizations response carries a
well-formed Link header whose next relation points at a second page
holding a further organization, yet fetch_orgs issues one request and
returns only the first page — the source (main.rs lines 177-188)
never reads the Link header. -/
theorem fetch_orgs_ignores_link :
    fetch_orgs c6Server c6Decode = (.ok [orgA], [orgsUrl])
  ∧ (c6Server orgsUrl).link = some (mkNextLink c6Page2)
  ∧ LinkHeader.create (mkNextLink c6Page2) = .ok ⟨[⟨c6Page2, nextRel⟩]⟩
  ∧ c6Decode (c6Server c6Page2).body = some [orgB] := ⟨rfl, rfl, rfl, rfl⟩

/-- C6 amended: fetch_orgs issues exactly one request, to the fixed
organizations endpoint, and its result depends only on that response's
body — any Link header is ignored. -/
theorem fetch_orgs_single_request (server : Str → Response)
    (decodeOrgs : Str → Option (List Org)) :
    (fetch_orgs server decodeOrgs).2 = [orgsUrl]
  ∧ fetch_orgs server decodeOrgs =
      fetch_orgs (fun u2 => ⟨none, (server u2).body⟩) decodeOrgs := by
  cases h : decodeOrgs (server orgsUrl).body <;> simp [fetch_orgs, h]

/-- C7 counterexample: when the first repository's clone fails to
launch, the question-mark operator in main's loop (main.rs line 270)
aborts the run — the second repository is never attempted. -/
theorem clone_launch_failure_stops :
    cloneAll gitNoLaunch c7Dir c7Repos = (.error (), ["u1".toList])
  ∧ c7Repos.map Repo.ssh_url = ["u1".toList, "u2".toList] := ⟨rfl, rfl⟩

/-- C7 amended: as long as every clone launches (its exit status may
still signal failure), the loop attempts every repository in list
order and completes; only a launch failure aborts the run. -/
theorem clone_continue_on_exit_failure (git : Str → Str → Except Unit Output)
    (dir : Str) (repos : List Repo)
    (h : ∀ repo ∈ repos, ∃ out, git repo.ssh_url dir = .ok out) :
    (cloneAll git dir repos).2 = repos.map Repo.ssh_url
  ∧ (cloneAll git dir repos).1 = .ok () := by
  induction repos with
  | nil => exact ⟨rfl, rfl⟩
  | cons repo rest ih =>
    obtain ⟨out, hout⟩ := h repo (List.mem_cons_self _ _)
    have hrest := ih (fun r hr => h r (List.mem_cons_of_mem _ hr))
    simp only [cloneAll, run_clone, hout, List.map_cons]
    exact ⟨by rw [hrest.1], hrest.2⟩

/-- Witness for clone_continue_on_exit_failure: a git invoker whose
every clone exits non-zero still has both repositories attempted. -/
theorem clone_continue_on_exit_failure_witness :
    (cloneAll gitExitFail c7Dir c7Repos).2 = c7Repos.map Repo.ssh_url
  ∧ (cloneAll gitExitFail c7Dir c7Repos).1 = .ok () :=
  clone_continue_on_exit_failure gitExitFail c7Dir c7Repos
    (fun _ _ => ⟨⟨false⟩, rfl⟩)

/-- C4 (amended): parsing a header value is all-or-nothing.  On
success the LinkHeader holds one fully parsed item per comma-separated
entry; the parse fails exactly when some entry fails, and the reported
error is that of the FIRST failing entry; an entry fails with
malformedLink exactly when its URL component has no angle-bracketed
URL capture, and with missingRelation exactly when it has a URL
capture but no attribute component yields a rel capture. -/
theorem link_header_all_or_nothing (h : Str) :
    (∀ lh, LinkHeader.create h = .ok lh →
        lh.items.length = (splitOnChar ',' h).length ∧
        ∀ (i : Nat) (p : Str), (splitOnChar ',' h)[i]? = some p →
          ∃ it, lh.items[i]? = some it ∧ LinkHeader.parse_item p = .ok it)
  ∧ (∀ e, LinkHeader.create h = .error e ↔
        ∃ (i : Nat) (p : Str), (splitOnChar ',' h)[i]? = some p ∧
          LinkHeader.parse_item p = .error e ∧
          ∀ (j : Nat) (q : Str), j < i → (splitOnChar ',' h)[j]? = some q →
            ∃ it, LinkHeader.parse_item q = .ok it)
  ∧ (∀ p, LinkHeader.parse_item p = .error .malformedLink ↔
        getUrlCapture (urlComponent p) = none)
  ∧ (∀ p, LinkHeader.parse_item p = .error .missingRelation ↔
        getUrlCapture (urlComponent p) ≠ none ∧
          findRel (attrComponents p) = none) := by
  refine ⟨?_, ?_, ?_, ?_⟩
  · intro lh hok
    rcases hc : createItems (splitOnChar ',' h) with e | its
    · simp only [LinkHeader.create, hc] at hok
      exact Except.noConfusion hok
    · simp only [LinkHeader.create, hc, Except.ok.injEq] at hok
      subst hok
      exact createItems_ok _ its hc
  · intro e
    constructor
    · intro herr
      rcases hc : createItems (splitOnChar ',' h) with e2 | its
      · simp only [LinkHeader.create, hc, Except.error.injEq] at herr
        subst herr
        exact (createItems_error_iff _ e2).mp hc
      · simp only [LinkHeader.create, hc] at herr
        exact Except.noConfusion herr
    · intro hex
      have hc := (createItems_error_iff (splitOnChar ',' h) e).mpr hex
      simp only [LinkHeader.create, hc]
  · intro p
    rcases hsp : splitOnChar ';' p with _ | ⟨uc, attrs⟩
    · simp only [LinkHeader.parse_item, hsp, urlComponent]
      simp [getUrlCapture]
    · simp only [LinkHeader.parse_item, hsp, urlComponent, List.headD_cons]
      rcases hca : getUrlCapture uc with _ | url
      · simp
      · rcases hfr : findRel attrs with _ | r <;> simp
  · intro p
    rcases hsp : splitOnChar ';' p with _ | ⟨uc, attrs⟩
    · simp only [LinkHeader.parse_item, hsp, urlComponent, attrComponents]
      simp [getUrlCapture]
    · simp only [LinkHeader.parse_item, hsp, urlComponent, attrComponents,
        List.headD_cons, List.tail_cons]
      rcases hca : getUrlCapture uc with _ | url
      · simp
      · rcases hfr : findRel attrs with _ | r <;> simp

/-- Witness for link_header_all_or_nothing: applying the error
characterization backward at a single-entry header with no
angle-bracketed URL concludes that the whole parse fails with
malformedLink. -/
theorem link_header_all_or_nothing_witness :
    LinkHeader.create ("noangles".toList) = .error .malformedLink :=
  ((link_header_all_or_nothing ("noangles".toList)).2.1 .malformedLink).mpr
    ⟨0, "noangles".toList, rfl, rfl,
      fun j _ hj _ => absurd hj (Nat.not_lt_zero j)⟩

/-- C4 counterexample: a header whose SECOND entry lacks an
angle-bracketed URL while its first entry lacks a rel attribute fails
with missingRelation, not with malformedLink as the claim demands for
every header containing a URL-less item. -/
theorem link_header_first_error_counterexample :
    LinkHeader.create ("<u>; x, noangle".toList) = .error .missingRelation
  ∧ LinkHeader.parse_item (" noangle".toList) = .error .malformedLink
  ∧ (splitOnChar ',' ("<u>; x, noangle".toList))[1]? = some (" noangle".toList) :=
  ⟨rfl, rfl, rfl⟩

/-- C5: find_rel returns an item of the header carrying exactly the
queried relation; it returns the item at the first matching position
(first match wins under duplicates); and it returns none exactly when
no item's relation equals the query. -/
theorem find_rel_first_match (lh : LinkHeader) (r : Str) :
    (∀ it, lh.find_rel r = some it → it ∈ lh.items ∧ it.rel = r)
  ∧ (∀ (i : Nat) (hi : i < lh.items.length), (lh.items.get ⟨i, hi⟩).rel = r →
      (∀ (j : Nat) (hj : j < i), (lh.items.get ⟨j, by omega⟩).rel ≠ r) →
      lh.find_rel r = some (lh.items.get ⟨i, hi⟩))
  ∧ (lh.find_rel r = none ↔ ∀ it ∈ lh.items, it.rel ≠ r) :=
  ⟨fun it h => findRelItemAux_mem r lh.items it h,
   fun i hi h1 h2 => findRelItemAux_first r lh.items i hi h1 h2,
   findRelItemAux_none r lh.items⟩

/-- Witness for find_rel_first_match: on a header with two items
carrying the relation next, find_rel returns the first. -/
theorem find_rel_first_match_witness :
    dupHeader.find_rel ("next".toList) = some ⟨"u1".toList, "next".toList⟩ :=
  (find_rel_first_match dupHeader ("next".toList)).2.1 0 (by decide) (by decide)
    (fun j hj => absurd hj (Nat.not_lt_zero j))

/-- C8: for a non-empty item list, a line that trims and parses to an
integer n with 1 <= n <= length returns index n-1 immediately; a line
that does not (non-numeric or out of range) merely re-prompts, leaving
the result that of the remaining input; a failed read returns none;
and any returned index arises from some entered line that parsed to
that index plus one, within range. -/
theorem show_menu_selection {α : Type} (items : List α) (_hne : items ≠ []) :
    (∀ (l : Str) (rest : List ReadResult) (n : Int),
        parseI32 (rustTrim l) = some n → 1 ≤ n → n ≤ (items.length : Int) →
        show_menu items (ReadResult.line l :: rest) = some (n - 1).toNat)
  ∧ (∀ (l : Str) (rest : List ReadResult),
        (∀ n : Int, parseI32 (rustTrim l) = some n →
          n < 1 ∨ (items.length : Int) < n) →
        show_menu items (ReadResult.line l :: rest) = show_menu items rest)
  ∧ (∀ rest : List ReadResult, show_menu items (ReadResult.eof :: rest) = none)
  ∧ (∀ (inputs : List ReadResult) (i : Nat), show_menu items inputs = some i →
        ∃ l : Str, ReadResult.line l ∈ inputs ∧
          parseI32 (rustTrim l) = some ((i : Int) + 1) ∧ i < items.length) := by
  refine ⟨?_, ?_, ?_, ?_⟩
  · intro l rest n hp h1 h2
    simp only [show_menu, hp]
    rw [if_neg (by omega)]
  · intro l rest hinv
    cases hp : parseI32 (rustTrim l) with
    | none => simp [show_menu, hp]
    | some n => simp [show_menu, hp, hinv n hp]
  · intro rest
    rfl
  · intro inputs
    induction inputs with
    | nil => intro i hsm; exact Option.noConfusion hsm
    | cons rr rest ih =>
      cases rr with
      | eof => intro i hsm; exact Option.noConfusion hsm
      | line l =>
        intro i hsm
        cases hp : parseI32 (rustTrim l) with
        | none =>
          simp only [show_menu, hp] at hsm
          obtain ⟨l2, hmem, hpl, hlen⟩ := ih i hsm
          exact ⟨l2, List.mem_cons_of_mem _ hmem, hpl, hlen⟩
        | some n =>
          simp only [show_menu, hp] at hsm
          by_cases hcond : n < 1 ∨ (items.length : Int) < n
          · rw [if_pos hcond] at hsm
            obtain ⟨l2, hmem, hpl, hlen⟩ := ih i hsm
            exact ⟨l2, List.mem_cons_of_mem _ hmem, hpl, hlen⟩
          · rw [if_neg hcond] at hsm
            injection hsm with h2
            refine ⟨l, List.mem_cons_self _ _, ?_, by omega⟩
            rw [hp]
            congr 1
            omega

/-- Witness for show_menu_selection on the three-item menu: entering
the line 2 selects index 1, and entering 0 then hitting end-of-input
yields none. -/
theorem show_menu_selection_witness :
    show_menu menu3 [ReadResult.line ("2".toList)] = some 1
  ∧ show_menu menu3 [ReadResult.line ("0".toList), ReadResult.eof] = none := by
  constructor
  · have h := (show_menu_selection menu3 (by decide)).1 ("2".toList) [] 2 rfl
      (by omega) (by decide)
    exact h
  · have h0 : parseI32 (rustTrim ("0".toList)) = some 0 := rfl
    have hstep := (show_menu_selection menu3 (by decide)).2.1 ("0".toList)
      [ReadResult.eof]
      (fun n hp => by rw [h0] at hp; injection hp with heq; omega)
    have hend := (show_menu_selection menu3 (by decide)).2.2.1 ([] : List ReadResult)
    rw [hstep, hend]

/-- C10: every index show_menu returns is strictly below the item
count (so the orchestrator's subsequent indexing of the organization
list at main.rs line 268 is in bounds), and on an empty item list
show_menu can only return none. -/
theorem show_menu_index_in_bounds :
    (∀ (α : Type) (items : List α) (inputs : List ReadResult) (i : Nat),
        show_menu items inputs = some i → i < items.length)
  ∧ (∀ (α : Type) (inputs : List ReadResult),
        show_menu ([] : List α) inputs = none) := by
  constructor
  · intro α items inputs
    induction inputs with
    | nil => intro i h; exact Option.noConfusion h
    | cons rr rest ih =>
      cases rr with
      | eof => intro i h; exact Option.noConfusion h
      | line l =>
        intro i h
        cases hp : parseI32 (rustTrim l) with
        | none =>
          simp only [show_menu, hp] at h
          exact ih i h
        | some n =>
          simp only [show_menu, hp] at h
          by_cases hcond : n < 1 ∨ (items.length : Int) < n
          · rw [if_pos hcond] at h; exact ih i h
          · rw [if_neg hcond] at h
            injection h with h2
            omega
  · intro α inputs
    induction inputs with
    | nil => rfl
    | cons rr rest ih =>
      cases rr with
      | eof => rfl
      | line l =>
        cases hp : parseI32 (rustTrim l) with
        | none => simp [show_menu, hp, ih]
        | some n =>
          simp only [show_menu, hp]
          rw [if_pos (by simp; omega)]
          exact ih

/-- Witness for show_menu_index_in_bounds: a returned index on the
three-item menu is below the menu's length. -/
theorem show_menu_index_in_bounds_witness : 0 < List.length menu3 :=
  show_menu_index_in_bounds.1 Str menu3 [ReadResult.line ("1".toList)] 0 rfl
